import Mathlib

/-!
Verification development for the noria per-domain packet plane:
the group-commit durability queue (src/dataflow/src/persistence/mod.rs)
and the node packet-routing state (src/noria-server/dataflow/src/node/mod.rs),
shallowly embedded in Lean 4.

Machine integers (u64 labels, usize lengths) are modelled as Nat: the code
never relies on wraparound (labels grow by one per packet).  Rust panics
(assert!, unwrap, unreachable!, out-of-range indexing) are modelled by
returning none from the embedded operation.  Side effects that leave the
core state (sending a debug event on a tracer channel, invoking the egress
processor) are modelled by returning the list of emitted events or
invocations.  File I/O in flush_internal only appends serialized bytes to a
log file and never feeds back into the queue state, so the file handles are
not part of the embedded state.
-/

namespace Noria

/-- Packet identifier: a 1-based label and the index of the sending node
(PacketId with fields label and from; from is a Lean keyword, rendered
from_). -/
structure PacketId where
  label : Nat
  from_ : Nat
deriving DecidableEq, Repr

/-- A link between two local nodes (struct Link with fields src and dst). -/
structure Link where
  src : Nat
  dst : Nat
deriving DecidableEq, Repr

/-- Transaction state carried by a VtMessage packet
(TransactionState::VtCommitted { at, prev, base } and the uncommitted
variant). -/
inductive TransactionState where
  | VtUncommitted
  | VtCommitted (at_ : Nat × Nat) (prev : Nat) (base : Nat)
deriving DecidableEq, Repr

/-- A tracer: optional (tag, optional sender channel).  The channel itself
is kept abstract; we keep only an identifying number. -/
abbrev Tracer := Option (Nat × Option Nat)

/-- The Packet sum type, restricted to the variants the persistence queue
and the routing state inspect.  Record batches (Records) are modelled as
lists of abstract records (Nat); Records::append concatenates. -/
inductive Packet where
  | Message (id : PacketId) (link : Link) (data : List Nat) (tracer : Tracer)
  | ReplayPiece (id : PacketId) (link : Link) (data : List Nat)
  | VtMessage (link : Link) (data : List Nat) (tracer : Tracer) (state : TransactionState)
  | Input
deriving DecidableEq, Repr

/-- The data field of a packet (used to state flush FIFO order). -/
def Packet.dataOf : Packet → List Nat
  | .Message _ _ d _ => d
  | .ReplayPiece _ _ d => d
  | .VtMessage _ d _ _ => d
  | .Input => []

/-- The tracer field of a packet. -/
def Packet.tracerOf : Packet → Tracer
  | .Message _ _ _ t => t
  | .VtMessage _ _ t _ => t
  | _ => none

/-- Packet::get_id, defined for the id-carrying variants (Message and
ReplayPiece); other variants have no id. -/
def Packet.get_id : Packet → Option PacketId
  | .Message id _ _ _ => some id
  | .ReplayPiece id _ _ => some id
  | _ => none

/-- NodeType (node/ntype.rs): Internal wraps a NodeOperator and Base wraps a
special::Base, both abstract here; Egress holds an optional egress processor,
abstract here. -/
inductive NodeType where
  | Source
  | Dropped
  | Ingress
  | Egress (e : Option Unit)
  | Sharder
  | Reader
  | Internal (op : Nat)
  | Base (b : Nat)
deriving DecidableEq, Repr

/-- Per-node state of the routing plane (struct Node, the fields the claims
touch).  index models IndexPair::as_global of the index field: some when the
node has been assigned an address, none otherwise (global_addr panics on
none).  The two label maps are total functions into Option, mirroring
HashMap lookup. -/
structure Node where
  inner : NodeType
  index : Option Nat
  last_packet_received : Nat → Option Nat
  next_packet_to_send : Nat → Option Nat
  buffer : List (Packet × List Nat)

/-- Node::is_internal: true exactly on the Internal variant. -/
def Node.is_internal (n : Node) : Bool :=
  match n.inner with
  | .Internal _ => true
  | _ => false

/-- Node::get_base: some exactly on the Base variant. -/
def Node.get_base (n : Node) : Option Nat :=
  match n.inner with
  | .Base b => some b
  | _ => none

/-- Node::global_addr: the global address, none modelling the unreachable!
panic when the index is unset. -/
def Node.global_addr (n : Node) : Option Nat :=
  n.index

/-- GroupCommitQueueSet::packet_destination: the destination of a VtMessage,
none for every other variant. -/
def packet_destination : Packet → Option Nat
  | .VtMessage link _ _ _ => some link.dst
  | _ => none

/-- GroupCommitQueueSet::should_append: the packet is a VtMessage and its
destination node is internal and has a base.  DomainNodes is modelled as a
total map from local node index to Node. -/
def should_append (nodes : Nat → Node) (p : Packet) : Bool :=
  match packet_destination p with
  | some n => (nodes n).is_internal && (nodes n).get_base.isSome
  | none => false

/-- C1: should_append(p, nodes) returns true iff p is a VtMessage whose
destination node is internal and has a base; every other variant yields
false. -/
theorem should_append_iff (nodes : Nat → Node) (p : Packet) :
    should_append nodes p = true ↔
      ∃ link data tracer st, p = Packet.VtMessage link data tracer st ∧
        (nodes link.dst).is_internal = true ∧ ((nodes link.dst).get_base).isSome = true := by
  cases p <;>
    simp [should_append, packet_destination, Bool.and_eq_true, and_assoc]

/-- A transaction time assignment (transactions::Assignment, the (time,
source, prev) triple consumed by merge_packets). -/
structure Assignment where
  time : Nat
  source : Nat
  prev : Nat
deriving DecidableEq, Repr

/-- A PacketEvent::Merged debug event, recorded instead of sent on the
tracer channel: the channel it is sent on, the surviving tag and the
absorbed tag. -/
structure MergedEvent where
  channel : Nat
  surviving : Nat
  absorbed : Nat
deriving DecidableEq, Repr

/-- One step of the tracer merge inside merge_packets: the Rust match on
(merged_tracer, next tracer).  First arm: the accumulator holds a tracer
(with or without a sender) and the incoming tracer has a sender: emit a
Merged event on the incoming sender and keep the accumulator.  Second arm:
any other incoming some-tracer replaces the accumulator.  Third arm: an
absent incoming tracer leaves the accumulator. -/
def mergeTracerStep (acc t : Tracer) : Tracer × Option MergedEvent :=
  match acc, t with
  | some (mtag, ms), some (tag, some ch) => (some (mtag, ms), some ⟨ch, mtag, tag⟩)
  | _, some t' => (some t', none)
  | acc, none => (acc, none)

/-- One step of the fold inside merge_packets over the drained batch:
asserts the packet is a VtMessage with the merged link (none models the
unreachable!/assert_eq panic), concatenates its data, and merges its
tracer. -/
def mergeStep (lnk : Link) (r : List Nat × Tracer × List MergedEvent) (p : Packet) :
    Option (List Nat × Tracer × List MergedEvent) :=
  match p with
  | .VtMessage l' d t _ =>
      if l' = lnk then
        let s := mergeTracerStep r.2.1 t
        some (r.1 ++ d, s.1, r.2.2 ++ s.2.toList)
      else none
  | _ => none

/-- The fold of merge_packets over the whole batch, accumulating merged
data, merged tracer and the emitted Merged events. -/
def mergeBody (lnk : Link) (pkts : List Packet) :
    Option (List Nat × Tracer × List MergedEvent) :=
  pkts.foldl (fun acc p => acc.bind fun r => mergeStep lnk r p) (some ([], none, []))

/-- GroupCommitQueueSet::merge_packets.  The outer Option models panics
(unreachable!, assert_eq, global_addr on an unset index); the inner Option
is the Rust return value, none exactly when the batch is empty.  The
transaction state is modelled by its assign_time function; the emitted
Merged events are returned alongside the packet. -/
def merge_packets (assign : Nat → Assignment) (nodes : Nat → Node)
    (packets : List Packet) : Option (Option (Packet × List MergedEvent)) :=
  match packets with
  | [] => some none
  | p0 :: _ =>
    match p0 with
    | .VtMessage lnk _ _ _ =>
        match (nodes lnk.dst).global_addr with
        | none => none
        | some base =>
            let a := assign base
            (mergeBody lnk packets).map fun r =>
              some (Packet.VtMessage lnk r.1 r.2.1
                      (.VtCommitted (a.time, a.source) a.prev base), r.2.2)
    | _ => none

/-- Helper: over a batch of VtMessages sharing the link, the merge fold
succeeds and its data component is the accumulator followed by the
concatenation of the packets' data in order. -/
theorem mergeBody_fold (lnk : Link) :
    ∀ (pkts : List Packet) (r : List Nat × Tracer × List MergedEvent),
      (∀ p ∈ pkts, ∃ d t st, p = Packet.VtMessage lnk d t st) →
      ∃ tr evs,
        pkts.foldl (fun acc p => acc.bind fun r => mergeStep lnk r p) (some r) =
          some (r.1 ++ (pkts.map Packet.dataOf).flatten, tr, evs) := by
  intro pkts
  induction pkts with
  | nil => intro r _; exact ⟨r.2.1, r.2.2, by simp⟩
  | cons p rest ih =>
      intro r hall
      obtain ⟨d, t, st, rfl⟩ := hall p (List.mem_cons_self p rest)
      have hrest : ∀ q ∈ rest, ∃ d t st, q = Packet.VtMessage lnk d t st :=
        fun q hq => hall q (List.mem_cons_of_mem _ hq)
      obtain ⟨tr, evs, hfold⟩ :=
        ih ⟨r.1 ++ d, (mergeTracerStep r.2.1 t).1,
            r.2.2 ++ (mergeTracerStep r.2.1 t).2.toList⟩ hrest
      refine ⟨tr, evs, ?_⟩
      have hstep : mergeStep lnk r (Packet.VtMessage lnk d t st) =
          some (r.1 ++ d, (mergeTracerStep r.2.1 t).1,
                r.2.2 ++ (mergeTracerStep r.2.1 t).2.toList) := by
        simp [mergeStep]
      simp only [List.foldl_cons, Option.bind_eq_bind, Option.some_bind]
      rw [hstep, hfold]
      simp [Packet.dataOf, List.append_assoc]

/-- C2: on a non-empty batch of VtMessages sharing one link whose
destination has a global address, merge_packets returns a single VtMessage
whose data is the concatenation of the batch data in FIFO order and whose
state is Committed carrying the (time, source) pair, prev and base from one
assign_time call on the destination's global address.  (The empty-batch
case returns the inner none by definition and is covered by
merge_packets_empty below.) -/
theorem merge_packets_spec (assign : Nat → Assignment) (nodes : Nat → Node)
    (lnk : Link) (pkts : List Packet) (base : Nat)
    (hne : pkts ≠ [])
    (hall : ∀ p ∈ pkts, ∃ d t st, p = Packet.VtMessage lnk d t st)
    (hbase : (nodes lnk.dst).global_addr = some base) :
    (merge_packets assign nodes [] = some none) ∧
    ∃ tr evs,
      merge_packets assign nodes pkts =
        some (some (Packet.VtMessage lnk (pkts.map Packet.dataOf).flatten tr
          (.VtCommitted ((assign base).time, (assign base).source)
            (assign base).prev base), evs)) := by
  refine ⟨rfl, ?_⟩
  cases pkts with
  | nil => exact absurd rfl hne
  | cons p0 rest =>
      obtain ⟨d, t, st, rfl⟩ := hall p0 (List.mem_cons_self p0 rest)
      obtain ⟨tr, evs, hfold⟩ := mergeBody_fold lnk (Packet.VtMessage lnk d t st :: rest)
        ([], none, []) hall
      refine ⟨tr, evs, ?_⟩
      simp only [merge_packets, hbase, mergeBody]
      rw [hfold]
      simp

/-- Witness for C2's theorem at a concrete two-packet batch. -/
theorem merge_packets_spec_witness :
    ∃ tr evs,
      merge_packets (fun _ => ⟨10, 20, 30⟩)
        (fun _ => ⟨.Base 0, some 5, fun _ => none, fun _ => none, []⟩)
        [Packet.VtMessage ⟨0, 1⟩ [100] none .VtUncommitted,
         Packet.VtMessage ⟨0, 1⟩ [101, 102] none .VtUncommitted] =
        some (some (Packet.VtMessage ⟨0, 1⟩
          ([Packet.VtMessage ⟨0, 1⟩ [100] none .VtUncommitted,
            Packet.VtMessage ⟨0, 1⟩ [101, 102] none .VtUncommitted].map
              Packet.dataOf).flatten tr
          (.VtCommitted (10, 20) 30 5), evs)) :=
  (merge_packets_spec (fun _ => ⟨10, 20, 30⟩)
    (fun _ => ⟨.Base 0, some 5, fun _ => none, fun _ => none, []⟩)
    ⟨0, 1⟩ _ 5 (by simp)
    (by
      intro p hp
      simp at hp
      rcases hp with h | h
      · exact ⟨[100], none, .VtUncommitted, h⟩
      · exact ⟨[101, 102], none, .VtUncommitted, h⟩)
    rfl).2

/-- Assign-time function used by the C5 counterexample. -/
def cexAssign : Nat → Assignment := fun _ => ⟨0, 0, 0⟩

/-- Node map used by the C5 counterexample. -/
def cexNodes : Nat → Node := fun _ => ⟨.Base 0, some 0, fun _ => none, fun _ => none, []⟩

/-- Two-packet batch for the C5 counterexample: the first tracer has no
sender, the second one does. -/
def cexBatch : List Packet :=
  [Packet.VtMessage ⟨0, 1⟩ [] (some (5, none)) .VtUncommitted,
   Packet.VtMessage ⟨0, 1⟩ [] (some (7, some 3)) .VtUncommitted]

/-- C5 counterexample: in a batch where only the second packet's tracer has
a sender, merge_packets emits a Merged event and keeps the sender-less first
tracer (5, none); the claim says the tracer with the sender, (7, some 3),
should survive, but the survivor differs from it. -/
theorem merge_tracer_cex :
    merge_packets cexAssign cexNodes cexBatch =
      some (some (Packet.VtMessage ⟨0, 1⟩ [] (some (5, none))
        (.VtCommitted (0, 0) 0 0), [⟨3, 5, 7⟩])) ∧
    some ((5 : Nat), (none : Option Nat)) ≠ some ((7 : Nat), some (3 : Nat)) :=
  ⟨rfl, by decide⟩

/-- C5 amended: the Merged event (on the absorbed side's channel, pairing
the surviving tag with the absorbed tag) is emitted whenever the surviving
tracer is present — whether or not it has a sender — and the next packet's
tracer has a sender, and then the surviving tracer is kept; otherwise any
present next tracer replaces the survivor (even a sender-less one replacing
a survivor with a sender), and an absent next tracer leaves the survivor
unchanged. -/
theorem merge_tracer_amended :
    (∀ mtag ms tag ch, mergeTracerStep (some (mtag, ms)) (some (tag, some ch)) =
        (some (mtag, ms), some ⟨ch, mtag, tag⟩)) ∧
    (∀ acc tag, mergeTracerStep acc (some (tag, none)) = (some (tag, none), none)) ∧
    (∀ tag ch, mergeTracerStep none (some (tag, some ch)) = (some (tag, some ch), none)) ∧
    (∀ acc, mergeTracerStep acc none = (acc, none)) := by
  refine ⟨fun _ _ _ _ => rfl, fun acc tag => ?_, fun _ _ => rfl, fun acc => ?_⟩
  · rcases acc with _ | ⟨a, b⟩ <;> rfl
  · rcases acc with _ | ⟨a, b⟩ <;> rfl

/-- Durability modes (enum DurabilityMode). -/
inductive DurabilityMode where
  | MemoryOnly
  | DeleteOnExit
  | Permanent
deriving DecidableEq, Repr

/-- Parameters of the group-commit queue set.  Durations and instants are
modelled as Nat; the log filename prefix plays no role in any claim and is
omitted. -/
structure Parameters where
  queue_capacity : Nat
  flush_timeout : Nat
  mode : DurabilityMode
deriving DecidableEq, Repr

/-- Association-list lookup, modelling Map indexing by LocalNodeIndex. -/
def alookup {α : Type} : List (Nat × α) → Nat → Option α
  | [], _ => none
  | (k', v) :: rest, k => if k = k' then some v else alookup rest k

/-- Association-list insert-or-replace, modelling Map::insert. -/
def ainsert {α : Type} : List (Nat × α) → Nat → α → List (Nat × α)
  | [], k, v => [(k, v)]
  | (k', v') :: rest, k, v =>
      if k = k' then (k, v) :: rest else (k', v') :: ainsert rest k v

/-- Association-list removal, modelling Map::remove. -/
def aremove {α : Type} : List (Nat × α) → Nat → List (Nat × α)
  | [], _ => []
  | (k', v') :: rest, k =>
      if k = k' then aremove rest k else (k', v') :: aremove rest k

/-- The group-commit queue set state (struct GroupCommitQueueSet).  The
open log files and the transaction reply senders never feed back into the
queueing behaviour and are not part of the state; domain index and shard
only select the log filename and are likewise omitted. -/
structure GroupCommitQueueSet where
  pending_packets : List (Nat × List Packet)
  wait_start : List (Nat × Nat)
  params : Parameters

/-- GroupCommitQueueSet::new, with its assert that the capacity is
positive (none models the assert failure). -/
def GroupCommitQueueSet.new (params : Parameters) : Option GroupCommitQueueSet :=
  if 0 < params.queue_capacity then some ⟨[], [], params⟩ else none

/-- GroupCommitQueueSet::flush_internal.  In the DeleteOnExit and Permanent
modes the code first serializes the pending data fields to the per-node log
file and syncs it; those bytes never re-enter the queue state, so only the
state transition is modelled: remove wait_start[node], drain pending[node]
and merge the drained batch.  Indexing a missing pending key, like a
failing merge assertion, models a panic as none. -/
def flush_internal (s : GroupCommitQueueSet) (node : Nat) (nodes : Nat → Node)
    (assign : Nat → Assignment) : Option (GroupCommitQueueSet × Option Packet) :=
  match alookup s.pending_packets node with
  | none => none
  | some drained =>
      match merge_packets assign nodes drained with
      | none => none
      | some merged =>
          some ({ s with wait_start := aremove s.wait_start node,
                         pending_packets := ainsert s.pending_packets node [] },
                merged.map Prod.fst)

/-- GroupCommitQueueSet::append: push the packet onto its destination's
pending queue (creating the queue if needed); flush immediately when the
queue reaches capacity, otherwise record wait_start when absent.  The
unwrap of packet_destination models as none on non-VtMessage packets. -/
def GroupCommitQueueSet.append (s : GroupCommitQueueSet) (p : Packet) (now : Nat)
    (nodes : Nat → Node) (assign : Nat → Assignment) :
    Option (GroupCommitQueueSet × Option Packet) :=
  match packet_destination p with
  | none => none
  | some node =>
      let pend := (alookup s.pending_packets node).getD [] ++ [p]
      let s1 := { s with pending_packets := ainsert s.pending_packets node pend }
      if s.params.queue_capacity ≤ pend.length then
        flush_internal s1 node nodes assign
      else if (alookup s.wait_start node).isNone then
        some ({ s1 with wait_start := ainsert s1.wait_start node now }, none)
      else
        some (s1, none)

/-- The scan of flush_if_necessary over wait_start: the first entry whose
elapsed time (now minus start, saturating) has reached the timeout. -/
def findTimedOut (ws : List (Nat × Nat)) (now timeout : Nat) : Option Nat :=
  match ws with
  | [] => none
  | (n, start) :: rest =>
      if timeout ≤ now - start then some n else findTimedOut rest now timeout

/-- GroupCommitQueueSet::flush_if_necessary: flush the first timed-out
destination, if any. -/
def flush_if_necessary (s : GroupCommitQueueSet) (now : Nat) (nodes : Nat → Node)
    (assign : Nat → Assignment) : Option (GroupCommitQueueSet × Option Packet) :=
  match findTimedOut s.wait_start now s.params.flush_timeout with
  | none => some (s, none)
  | some node => flush_internal s node nodes assign

/-- A command against the queue set: an append of one packet or one
flush_if_necessary scan, each at some instant. -/
inductive GCmd where
  | append (p : Packet) (now : Nat)
  | flush (now : Nat)

/-- Run a command sequence against the queue set, stopping at the first
panic and discarding the returned merged packets. -/
def runG (nodes : Nat → Node) (assign : Nat → Assignment) :
    GroupCommitQueueSet → List GCmd → Option GroupCommitQueueSet
  | s, [] => some s
  | s, GCmd.append p now :: cs =>
      match GroupCommitQueueSet.append s p now nodes assign with
      | none => none
      | some (s', _) => runG nodes assign s' cs
  | s, GCmd.flush now :: cs =>
      match flush_if_necessary s now nodes assign with
      | none => none
      | some (s', _) => runG nodes assign s' cs

/-- Lookup after insert-or-replace. -/
theorem alookup_ainsert {α : Type} (l : List (Nat × α)) (k : Nat) (v : α) (k' : Nat) :
    alookup (ainsert l k v) k' = if k' = k then some v else alookup l k' := by
  induction l with
  | nil => simp [ainsert, alookup]
  | cons kv rest ih =>
      obtain ⟨a, b⟩ := kv
      by_cases hka : k = a
      · subst hka
        simp [ainsert, alookup]
        by_cases hk' : k' = k <;> simp [hk', alookup]
      · simp only [ainsert, if_neg hka, alookup]
        by_cases hk'a : k' = a
        · subst hk'a
          have : ¬ k' = k := fun h => hka h.symm
          simp [this]
        · simp [hk'a, ih]

/-- Lookup after removal. -/
theorem alookup_aremove {α : Type} (l : List (Nat × α)) (k : Nat) (k' : Nat) :
    alookup (aremove l k) k' = if k' = k then none else alookup l k' := by
  induction l with
  | nil => simp [aremove, alookup]
  | cons kv rest ih =>
      obtain ⟨a, b⟩ := kv
      by_cases hka : k = a
      · subst hka
        rw [show aremove ((k, b) :: rest) k = aremove rest k from by simp [aremove]]
        rw [ih]
        by_cases hk' : k' = k <;> simp [hk', alookup]
      · simp only [aremove, if_neg hka, alookup]
        by_cases hk'a : k' = a
        · subst hk'a
          have : ¬ k' = k := fun h => hka h.symm
          simp [this]
        · simp [hk'a, ih]

/-- A destination returned by the flush_if_necessary scan is a key of
wait_start. -/
theorem findTimedOut_isSome (ws : List (Nat × Nat)) (now timeout n : Nat)
    (h : findTimedOut ws now timeout = some n) : (alookup ws n).isSome = true := by
  induction ws with
  | nil => simp [findTimedOut] at h
  | cons kv rest ih =>
      obtain ⟨a, st⟩ := kv
      simp only [findTimedOut] at h
      by_cases hto : timeout ≤ now - st
      · rw [if_pos hto] at h
        obtain rfl : a = n := by injection h
        simp [alookup]
      · rw [if_neg hto] at h
        have := ih h
        by_cases hna : n = a <;> simp [alookup, hna, this]

/-- Invariant of the queue set maintained by append and
flush_if_necessary: per destination, the pending queue is non-empty exactly
when wait_start is present, and its length stays below the capacity. -/
def QueueInv (s : GroupCommitQueueSet) : Prop :=
  ∀ n, (((alookup s.pending_packets n).getD []) ≠ [] ↔ (alookup s.wait_start n).isSome = true)
    ∧ ((alookup s.pending_packets n).getD []).length < s.params.queue_capacity

/-- Equational characterization of flush_internal when the destination's
pending queue is present. -/
theorem flush_internal_eq (s : GroupCommitQueueSet) (d : Nat) (nodes : Nat → Node)
    (assign : Nat → Assignment) (drained : List Packet)
    (hpd : alookup s.pending_packets d = some drained) :
    flush_internal s d nodes assign =
      (merge_packets assign nodes drained).map (fun merged =>
        ({ s with
             wait_start := aremove s.wait_start d,
             pending_packets := ainsert s.pending_packets d [] },
         merged.map Prod.fst)) := by
  simp only [flush_internal, hpd]
  cases merge_packets assign nodes drained <;> rfl

/-- The state after a flush of destination d satisfies the invariant, given
that it held at every other destination and the capacity is positive. -/
theorem queueInv_flushed (s : GroupCommitQueueSet) (d : Nat)
    (hcap : 0 < s.params.queue_capacity)
    (hother : ∀ n, n ≠ d →
      (((alookup s.pending_packets n).getD []) ≠ [] ↔ (alookup s.wait_start n).isSome = true)
        ∧ ((alookup s.pending_packets n).getD []).length < s.params.queue_capacity) :
    QueueInv { s with
                 wait_start := aremove s.wait_start d,
                 pending_packets := ainsert s.pending_packets d [] } := by
  intro n
  by_cases hn : n = d
  · subst hn
    simp only [alookup_ainsert, alookup_aremove, if_pos rfl]
    exact ⟨by simp, by simpa using hcap⟩
  · simp only [alookup_ainsert, alookup_aremove, if_neg hn]
    exact hother n hn

/-- flush_internal preserves the invariant and the parameters. -/
theorem queueInv_flush_internal (s s' : GroupCommitQueueSet) (d : Nat)
    (nodes : Nat → Node) (assign : Nat → Assignment) (op : Option Packet)
    (hinv : QueueInv s)
    (h : flush_internal s d nodes assign = some (s', op)) :
    QueueInv s' ∧ s'.params = s.params := by
  cases hpd : alookup s.pending_packets d with
  | none =>
      simp only [flush_internal, hpd] at h
      exact Option.noConfusion h
  | some drained =>
      rw [flush_internal_eq s d nodes assign drained hpd] at h
      cases hm : merge_packets assign nodes drained with
      | none => rw [hm] at h; simp at h
      | some merged =>
          rw [hm] at h
          simp only [Option.map_some', Option.some.injEq, Prod.mk.injEq] at h
          obtain ⟨h1, h2⟩ := h
          subst h1
          have hcap : 0 < s.params.queue_capacity :=
            lt_of_le_of_lt (Nat.zero_le _) (hinv 0).2
          exact ⟨queueInv_flushed s d hcap (fun n _ => hinv n), rfl⟩

/-- append preserves the invariant and the parameters. -/
theorem queueInv_append (s s' : GroupCommitQueueSet) (p : Packet) (now : Nat)
    (nodes : Nat → Node) (assign : Nat → Assignment) (op : Option Packet)
    (hinv : QueueInv s)
    (h : s.append p now nodes assign = some (s', op)) :
    QueueInv s' ∧ s'.params = s.params := by
  cases hpd : packet_destination p with
  | none =>
      simp only [GroupCommitQueueSet.append, hpd] at h
      exact Option.noConfusion h
  | some d =>
      simp only [GroupCommitQueueSet.append, hpd] at h
      set pend : List Packet := (alookup s.pending_packets d).getD [] ++ [p] with hpend
      set s1 : GroupCommitQueueSet :=
        { s with pending_packets := ainsert s.pending_packets d pend } with hs1
      by_cases hflush : s.params.queue_capacity ≤ pend.length
      · rw [if_pos hflush] at h
        have hpd1 : alookup s1.pending_packets d = some pend := by
          simp [hs1, alookup_ainsert]
        rw [flush_internal_eq s1 d nodes assign pend hpd1] at h
        cases hm : merge_packets assign nodes pend with
        | none => rw [hm] at h; simp at h
        | some merged =>
            rw [hm] at h
            simp only [Option.map_some', Option.some.injEq, Prod.mk.injEq] at h
            obtain ⟨h1, h2⟩ := h
            subst h1
            have hcap : 0 < s1.params.queue_capacity :=
              lt_of_le_of_lt (Nat.zero_le _) (hinv 0).2
            refine ⟨queueInv_flushed s1 d hcap (fun n hn => ?_), rfl⟩
            simpa [hs1, alookup_ainsert, if_neg hn] using hinv n
      · rw [if_neg hflush] at h
        have hlen : pend.length < s.params.queue_capacity := Nat.lt_of_not_le hflush
        by_cases hws : (alookup s.wait_start d).isNone = true
        · rw [if_pos hws] at h
          simp only [Option.some.injEq, Prod.mk.injEq] at h
          obtain ⟨h1, h2⟩ := h
          subst h1
          refine ⟨fun n => ?_, rfl⟩
          by_cases hn : n = d
          · subst hn
            simp only [hs1, alookup_ainsert, if_pos rfl]
            exact ⟨by simp [hpend], hlen⟩
          · simp only [hs1, alookup_ainsert, if_neg hn]
            exact hinv n
        · rw [if_neg hws] at h
          simp only [Option.some.injEq, Prod.mk.injEq] at h
          obtain ⟨h1, h2⟩ := h
          subst h1
          refine ⟨fun n => ?_, rfl⟩
          by_cases hn : n = d
          · subst hn
            simp only [hs1, alookup_ainsert, if_pos rfl]
            refine ⟨⟨fun _ => ?_, fun _ => by simp [hpend]⟩, hlen⟩
            simpa [Option.isNone_iff_eq_none, Option.isSome_iff_ne_none] using hws
          · simp only [hs1, alookup_ainsert, if_neg hn]
            exact hinv n

/-- flush_if_necessary preserves the invariant and the parameters. -/
theorem queueInv_flush_if_necessary (s s' : GroupCommitQueueSet) (now : Nat)
    (nodes : Nat → Node) (assign : Nat → Assignment) (op : Option Packet)
    (hinv : QueueInv s)
    (h : flush_if_necessary s now nodes assign = some (s', op)) :
    QueueInv s' ∧ s'.params = s.params := by
  cases hft : findTimedOut s.wait_start now s.params.flush_timeout with
  | none =>
      simp only [flush_if_necessary, hft, Option.some.injEq, Prod.mk.injEq] at h
      obtain ⟨h1, h2⟩ := h
      subst h1
      exact ⟨hinv, rfl⟩
  | some d =>
      simp only [flush_if_necessary, hft] at h
      exact queueInv_flush_internal s s' d nodes assign op hinv h

/-- The invariant holds at every state reachable from a fresh queue set. -/
theorem queueInv_runG (nodes : Nat → Node) (assign : Nat → Assignment) :
    ∀ (cmds : List GCmd) (s s' : GroupCommitQueueSet),
      QueueInv s → runG nodes assign s cmds = some s' →
      QueueInv s' ∧ s'.params = s.params := by
  intro cmds
  induction cmds with
  | nil =>
      intro s s' hinv hrun
      obtain rfl : s = s' := by simpa [runG] using hrun
      exact ⟨hinv, rfl⟩
  | cons c cs ih =>
      intro s s' hinv hrun
      cases c with
      | append p now =>
          simp only [runG] at hrun
          cases hstep : GroupCommitQueueSet.append s p now nodes assign with
          | none => rw [hstep] at hrun; exact absurd hrun (by simp)
          | some r =>
              rw [hstep] at hrun
              obtain ⟨s1, op⟩ := r
              obtain ⟨hinv1, hp1⟩ := queueInv_append s s1 p now nodes assign op hinv hstep
              obtain ⟨hinv', hp'⟩ := ih s1 s' hinv1 hrun
              exact ⟨hinv', hp'.trans hp1⟩
      | flush now =>
          simp only [runG] at hrun
          cases hstep : flush_if_necessary s now nodes assign with
          | none => rw [hstep] at hrun; exact absurd hrun (by simp)
          | some r =>
              rw [hstep] at hrun
              obtain ⟨s1, op⟩ := r
              obtain ⟨hinv1, hp1⟩ :=
                queueInv_flush_if_necessary s s1 now nodes assign op hinv hstep
              obtain ⟨hinv', hp'⟩ := ih s1 s' hinv1 hrun
              exact ⟨hinv', hp'.trans hp1⟩

/-- C7: append pushes the packet onto its destination's pending queue;
when the queue has then reached capacity that destination is flushed
immediately (pending emptied, wait_start removed) and the merged packet is
returned, otherwise wait_start is set to now when absent and none is
returned; and over any run from a fresh queue set, no destination's
pending length ever exceeds the capacity. -/
theorem append_capacity_spec :
    (∀ (s : GroupCommitQueueSet) (p : Packet) (now d : Nat)
        (nodes : Nat → Node) (assign : Nat → Assignment),
      packet_destination p = some d →
      ((alookup s.pending_packets d).getD [] ++ [p]).length < s.params.queue_capacity →
      s.append p now nodes assign =
        some ({ s with
                  pending_packets := ainsert s.pending_packets d
                    ((alookup s.pending_packets d).getD [] ++ [p]),
                  wait_start := if (alookup s.wait_start d).isNone = true
                                then ainsert s.wait_start d now else s.wait_start },
              none)) ∧
    (∀ (s : GroupCommitQueueSet) (p : Packet) (now d : Nat)
        (nodes : Nat → Node) (assign : Nat → Assignment),
      packet_destination p = some d →
      s.params.queue_capacity ≤ ((alookup s.pending_packets d).getD [] ++ [p]).length →
      s.append p now nodes assign =
        (merge_packets assign nodes ((alookup s.pending_packets d).getD [] ++ [p])).map
          (fun merged =>
            ({ s with
                 wait_start := aremove s.wait_start d,
                 pending_packets := ainsert
                   (ainsert s.pending_packets d ((alookup s.pending_packets d).getD [] ++ [p]))
                   d [] },
             merged.map Prod.fst))) ∧
    (∀ (params : Parameters) (nodes : Nat → Node) (assign : Nat → Assignment)
        (cmds : List GCmd) (s0 s' : GroupCommitQueueSet),
      GroupCommitQueueSet.new params = some s0 →
      runG nodes assign s0 cmds = some s' →
      ∀ n, ((alookup s'.pending_packets n).getD []).length ≤ params.queue_capacity) := by
  refine ⟨?_, ?_, ?_⟩
  · intro s p now d nodes assign hpd hlt
    simp only [GroupCommitQueueSet.append, hpd]
    rw [if_neg (Nat.not_le.mpr hlt)]
    by_cases hws : (alookup s.wait_start d).isNone = true
    · rw [if_pos hws, if_pos hws]
    · rw [if_neg hws, if_neg hws]
  · intro s p now d nodes assign hpd hge
    simp only [GroupCommitQueueSet.append, hpd]
    rw [if_pos hge]
    rw [flush_internal_eq
      { s with
          pending_packets :=
            ainsert s.pending_packets d ((alookup s.pending_packets d).getD [] ++ [p]) }
      d nodes assign ((alookup s.pending_packets d).getD [] ++ [p])
      (by simp [alookup_ainsert])]
  · intro params nodes assign cmds s0 s' hnew hrun n
    by_cases hc : 0 < params.queue_capacity
    · obtain rfl : s0 = ⟨[], [], params⟩ := by
        simp only [GroupCommitQueueSet.new, if_pos hc, Option.some.injEq] at hnew
        exact hnew.symm
      have hinv0 : QueueInv ⟨[], [], params⟩ :=
        fun n => ⟨by simp [alookup], by simpa [alookup] using hc⟩
      obtain ⟨hinv', hp'⟩ := queueInv_runG nodes assign cmds _ s' hinv0 hrun
      have := (hinv' n).2
      rw [hp'] at this
      exact le_of_lt this
    · simp only [GroupCommitQueueSet.new, if_neg hc] at hnew
      exact Option.noConfusion hnew

/-- Witness for C7's theorem: a fresh queue set of capacity 2, one append
that does not reach capacity. -/
theorem append_capacity_spec_witness :
    (packet_destination (Packet.VtMessage ⟨0, 1⟩ [42] none .VtUncommitted) = some 1) ∧
    (((alookup (⟨[], [], ⟨2, 5, .MemoryOnly⟩⟩ : GroupCommitQueueSet).pending_packets 1).getD []
        ++ [Packet.VtMessage ⟨0, 1⟩ [42] none .VtUncommitted]).length <
      (⟨[], [], ⟨2, 5, .MemoryOnly⟩⟩ : GroupCommitQueueSet).params.queue_capacity) ∧
    (⟨[], [], ⟨2, 5, .MemoryOnly⟩⟩ : GroupCommitQueueSet).append
        (Packet.VtMessage ⟨0, 1⟩ [42] none .VtUncommitted) 7 cexNodes cexAssign =
      some ({ (⟨[], [], ⟨2, 5, .MemoryOnly⟩⟩ : GroupCommitQueueSet) with
                pending_packets := ainsert [] 1
                  ((alookup ([] : List (Nat × List Packet)) 1).getD []
                    ++ [Packet.VtMessage ⟨0, 1⟩ [42] none .VtUncommitted]),
                wait_start := if (alookup ([] : List (Nat × Nat)) 1).isNone = true
                              then ainsert [] 1 7 else [] },
            none) :=
  ⟨rfl, by decide,
    append_capacity_spec.1 ⟨[], [], ⟨2, 5, .MemoryOnly⟩⟩
      (Packet.VtMessage ⟨0, 1⟩ [42] none .VtUncommitted) 7 1 cexNodes cexAssign
      rfl (by decide)⟩

/-- C9: at every queue set reachable from a fresh one by appends and
flush_if_necessary calls, a destination's pending queue is non-empty
exactly when its wait_start entry is present. -/
theorem pending_wait_start_iff (params : Parameters) (nodes : Nat → Node)
    (assign : Nat → Assignment) (cmds : List GCmd) (s0 s' : GroupCommitQueueSet)
    (hnew : GroupCommitQueueSet.new params = some s0)
    (hrun : runG nodes assign s0 cmds = some s') (n : Nat) :
    (alookup s'.pending_packets n).getD [] ≠ [] ↔ (alookup s'.wait_start n).isSome = true := by
  by_cases hc : 0 < params.queue_capacity
  · obtain rfl : s0 = ⟨[], [], params⟩ := by
      simp only [GroupCommitQueueSet.new, if_pos hc, Option.some.injEq] at hnew
      exact hnew.symm
    have hinv0 : QueueInv ⟨[], [], params⟩ :=
      fun n => ⟨by simp [alookup], by simpa [alookup] using hc⟩
    exact ((queueInv_runG nodes assign cmds _ s' hinv0 hrun).1 n).1
  · simp only [GroupCommitQueueSet.new, if_neg hc] at hnew
    exact Option.noConfusion hnew

/-- Witness for C9's theorem: after one append on a fresh capacity-2 queue
set, destination 1 has a pending packet and a wait_start entry. -/
theorem pending_wait_start_iff_witness :
    (alookup (⟨[(1, [Packet.VtMessage ⟨0, 1⟩ [42] none .VtUncommitted])], [(1, 7)],
        ⟨2, 5, .MemoryOnly⟩⟩ : GroupCommitQueueSet).pending_packets 1).getD [] ≠ [] ↔
      (alookup (⟨[(1, [Packet.VtMessage ⟨0, 1⟩ [42] none .VtUncommitted])], [(1, 7)],
        ⟨2, 5, .MemoryOnly⟩⟩ : GroupCommitQueueSet).wait_start 1).isSome = true :=
  pending_wait_start_iff ⟨2, 5, .MemoryOnly⟩ cexNodes cexAssign
    [GCmd.append (Packet.VtMessage ⟨0, 1⟩ [42] none .VtUncommitted) 7]
    ⟨[], [], ⟨2, 5, .MemoryOnly⟩⟩ _ rfl rfl 1

/-- Pointwise update of a function-modelled HashMap. -/
def mupdate (f : Nat → Option Nat) (k v : Nat) : Nat → Option Nat :=
  fun q => if q = k then some v else f q

/-- The body of Node::receive_packet for an id-carrying packet: the debug
print reads global_addr (none models its panic on an unset index); the
label is stored, and the assert that it strictly exceeds the previously
stored label (default 0) fires otherwise. -/
def receiveId (n : Node) (id : PacketId) : Option Node :=
  match n.index with
  | none => none
  | some _ =>
      if (n.last_packet_received id.from_).getD 0 < id.label then
        some { n with
                 last_packet_received := mupdate n.last_packet_received id.from_ id.label }
      else none

/-- Node::receive_packet: Input returns immediately; Message and
ReplayPiece record their label; any other variant is unreachable!. -/
def receive_packet (n : Node) (m : Packet) : Option Node :=
  match m with
  | .Input => some n
  | .Message id _ _ _ => receiveId n id
  | .ReplayPiece id _ _ => receiveId n id
  | _ => none

/-- The (from, label) pair of an id-carrying packet. -/
def fromLabel : Packet → Option (Nat × Nat)
  | .Message id _ _ _ => some (id.from_, id.label)
  | .ReplayPiece id _ _ => some (id.from_, id.label)
  | _ => none

/-- The labels delivered by a packet sequence from one source, in order. -/
def labelsFrom (s : Nat) (ms : List Packet) : List Nat :=
  ms.filterMap fun m =>
    match fromLabel m with
    | some (f, l) => if f = s then some l else none
    | none => none

/-- Run a sequence of receive_packet calls, stopping at the first panic. -/
def runReceive (n : Node) : List Packet → Option Node
  | [] => some n
  | m :: ms =>
      match receive_packet n m with
      | none => none
      | some n1 => runReceive n1 ms

/-- HashSet::insert on the destination set, modelled as a duplicate-free
cons. -/
def insertSet (s : List Nat) (x : Nat) : List Nat :=
  if x ∈ s then s else x :: s

/-- Step 1 of Node::send_external_packet, the buffer write: a label beyond
the buffer must be exactly one past its end (outgoing labels increase
sequentially, assert failure is none) and appends a clone of the payload
with the singleton destination set; an existing label adds the destination
to that entry's set (a zero label underflows the 1-based index, a panic). -/
def bufferWrite (buf : List (Packet × List Nat)) (m : Packet) (label to_ : Nat) :
    Option (List (Packet × List Nat)) :=
  if buf.length < label then
    if label = buf.length + 1 then some (buf ++ [(m, [to_])]) else none
  else
    if label = 0 then none
    else
      match buf[label - 1]? with
      | none => none
      | some e => some (buf.set (label - 1) (e.1, insertSet e.2 to_))

/-- The assert loop of send_external_packet over the skipped labels: every
entry in the range must not list the destination (a listed destination or
an out-of-range index is a panic). -/
def checkSkipped (buf : List (Packet × List Nat)) (to_ : Nat) : List Nat → Option Unit
  | [] => some ()
  | i :: rest =>
      if i = 0 then none
      else
        match buf[i - 1]? with
        | none => none
        | some e => if to_ ∈ e.2 then none else checkSkipped buf to_ rest

/-- Node::send_external_packet: after asserting the packet comes from this
node, write the buffer, then gate on the destination's next_packet_to_send entry: when present,
assert the skipped labels never listed the destination, advance the entry
to label + 1 and return true; when absent return false with the label map
untouched. -/
def send_external_packet (n : Node) (m : Packet) (to_ : Nat) : Option (Node × Bool) :=
  match m.get_id, n.global_addr with
  | some id, some me =>
      if id.from_ = me then
        match bufferWrite n.buffer m id.label to_ with
        | none => none
        | some buf1 =>
            match n.next_packet_to_send to_ with
            | some old =>
                match checkSkipped buf1 to_ (List.range' old (id.label - old)) with
                | none => none
                | some _ =>
                    some ({ n with
                              buffer := buf1,
                              next_packet_to_send :=
                                mupdate n.next_packet_to_send to_ (id.label + 1) },
                          true)
            | none => some ({ n with buffer := buf1 }, false)
      else none
  | _, _ => none

/-- Run a sequence of send_external_packet calls, stopping at the first
panic and discarding the returned booleans. -/
def runSends (n : Node) : List (Packet × Nat) → Option Node
  | [] => some n
  | (m, to_) :: rest =>
      match send_external_packet n m to_ with
      | none => none
      | some (n1, _) => runSends n1 rest

/-- The buffered labels form the sequence 1, 2, 3, ...: the packet stored
at buffer position i carries label i + 1. -/
def labelSeq (n : Node) : Prop :=
  ∀ i e, n.buffer[i]? = some e → ∃ id, (e.1).get_id = some id ∧ id.label = i + 1

/-- The replay loop of Node::resume_at: read buffer[i - 1] for each label i
in the range, collecting clones of the payloads (an out-of-range or
underflowing index is a panic). -/
def collectReplay (buf : List (Packet × List Nat)) : List Nat → Option (List Packet)
  | [] => some []
  | i :: rest =>
      if i = 0 then none
      else
        match buf[i - 1]? with
        | none => none
        | some e => (collectReplay buf rest).map fun l => e.1 :: l

/-- Node::resume_at: requires an Egress with a present processor
(unreachable! otherwise).  For each label in [label, buffer length + 1) the
egress processor is invoked with a clone of that entry's payload, the shard
defaulting to 0, and the singleton destination set of the requesting node;
the invocations are returned in order instead of performed.  Afterwards
next_packet_to_send[node] is set to buffer length + 1. -/
def resume_at (n : Node) (node label : Nat) (on_shard : Option Nat) :
    Option (Node × List (Packet × Nat × List Nat)) :=
  match n.inner with
  | .Egress (some _) =>
      match collectReplay n.buffer (List.range' label (n.buffer.length + 1 - label)) with
      | none => none
      | some pkts =>
          some ({ n with
                    next_packet_to_send :=
                      mupdate n.next_packet_to_send node (n.buffer.length + 1) },
                pkts.map fun m => (m, on_shard.getD 0, [node]))
  | _ => none

/-- Inversion of a successful receiveId: the label strictly exceeds the
stored one and is stored. -/
theorem receiveId_some (n n1 : Node) (id : PacketId)
    (h : receiveId n id = some n1) :
    (n.last_packet_received id.from_).getD 0 < id.label ∧
    n1 = { n with
             last_packet_received := mupdate n.last_packet_received id.from_ id.label } := by
  cases hix : n.index with
  | none => simp only [receiveId, hix] at h; exact Option.noConfusion h
  | some a =>
      simp only [receiveId, hix] at h
      by_cases hlt : (n.last_packet_received id.from_).getD 0 < id.label
      · rw [if_pos hlt] at h
        exact ⟨hlt, (Option.some.inj h).symm⟩
      · rw [if_neg hlt] at h
        exact Option.noConfusion h

/-- C8: receive_packet ignores Input packets, and over any successful run
of receive_packet calls the labels delivered from a source s form a chain
strictly increasing from the previously stored label (default 0), the last
one being left stored.  A failure of that strict increase is a panic: the
run returns none. -/
theorem receive_packet_monotone (n : Node) :
    (receive_packet n Packet.Input = some n) ∧
    ∀ (ms : List Packet) (n' : Node) (s : Nat),
      runReceive n ms = some n' →
      List.Chain (fun a b => a < b) ((n.last_packet_received s).getD 0) (labelsFrom s ms) ∧
      (n'.last_packet_received s).getD 0 =
        (labelsFrom s ms).getLastD ((n.last_packet_received s).getD 0) := by
  refine ⟨rfl, ?_⟩
  intro ms
  induction ms generalizing n with
  | nil =>
      intro n' s hrun
      obtain rfl : n = n' := Option.some.inj (by simpa [runReceive] using hrun)
      exact ⟨List.Chain.nil, rfl⟩
  | cons m rest ih =>
      intro n' s hrun
      simp only [runReceive] at hrun
      cases hstep : receive_packet n m with
      | none => rw [hstep] at hrun; exact Option.noConfusion hrun
      | some n1 =>
          rw [hstep] at hrun
          cases m with
          | Input =>
              obtain rfl : n = n1 := Option.some.inj hstep
              have hrest := ih n n' s hrun
              simpa [labelsFrom, fromLabel] using hrest
          | VtMessage l d t st => exact Option.noConfusion hstep
          | Message id l d t =>
              obtain ⟨hlt, rfl⟩ := receiveId_some n _ id hstep
              have hrest := ih _ n' s hrun
              by_cases hfs : id.from_ = s
              · subst hfs
                have hsame :
                    (({ n with
                          last_packet_received :=
                            mupdate n.last_packet_received id.from_ id.label } :
                        Node).last_packet_received id.from_).getD 0 = id.label := by
                  simp [mupdate]
                rw [hsame] at hrest
                have hlab : labelsFrom id.from_ (Packet.Message id l d t :: rest) =
                    id.label :: labelsFrom id.from_ rest := by
                  simp [labelsFrom, fromLabel]
                rw [hlab, List.getLastD_cons]
                exact ⟨List.Chain.cons hlt hrest.1, hrest.2⟩
              · have hsf : ¬ s = id.from_ := fun h => hfs h.symm
                have hsame :
                    (({ n with
                          last_packet_received :=
                            mupdate n.last_packet_received id.from_ id.label } :
                        Node).last_packet_received s).getD 0 =
                      (n.last_packet_received s).getD 0 := by
                  simp [mupdate, hsf]
                rw [hsame] at hrest
                have hlab : labelsFrom s (Packet.Message id l d t :: rest) =
                    labelsFrom s rest := by
                  simp [labelsFrom, fromLabel, hfs]
                rw [hlab]
                exact hrest
          | ReplayPiece id l d =>
              obtain ⟨hlt, rfl⟩ := receiveId_some n _ id hstep
              have hrest := ih _ n' s hrun
              by_cases hfs : id.from_ = s
              · subst hfs
                have hsame :
                    (({ n with
                          last_packet_received :=
                            mupdate n.last_packet_received id.from_ id.label } :
                        Node).last_packet_received id.from_).getD 0 = id.label := by
                  simp [mupdate]
                rw [hsame] at hrest
                have hlab : labelsFrom id.from_ (Packet.ReplayPiece id l d :: rest) =
                    id.label :: labelsFrom id.from_ rest := by
                  simp [labelsFrom, fromLabel]
                rw [hlab, List.getLastD_cons]
                exact ⟨List.Chain.cons hlt hrest.1, hrest.2⟩
              · have hsf : ¬ s = id.from_ := fun h => hfs h.symm
                have hsame :
                    (({ n with
                          last_packet_received :=
                            mupdate n.last_packet_received id.from_ id.label } :
                        Node).last_packet_received s).getD 0 =
                      (n.last_packet_received s).getD 0 := by
                  simp [mupdate, hsf]
                rw [hsame] at hrest
                have hlab : labelsFrom s (Packet.ReplayPiece id l d :: rest) =
                    labelsFrom s rest := by
                  simp [labelsFrom, fromLabel, hfs]
                rw [hlab]
                exact hrest

/-- Initial node for the C8 witness. -/
def recvNode0 : Node := ⟨.Internal 0, some 9, fun _ => none, fun _ => none, []⟩

/-- Two packets from source 4 with labels 1 and 3 for the C8 witness. -/
def recvMsgs : List Packet :=
  [.Message ⟨1, 4⟩ ⟨0, 0⟩ [] none, .Message ⟨3, 4⟩ ⟨0, 0⟩ [] none]

/-- Final node of the C8 witness run. -/
def recvNodeF : Node :=
  { recvNode0 with
      last_packet_received :=
        mupdate (mupdate recvNode0.last_packet_received 4 1) 4 3 }

/-- Witness for C8's theorem: labels 1 then 3 from source 4 are accepted
and leave 3 stored. -/
theorem receive_packet_monotone_witness :
    List.Chain (fun a b => a < b) ((recvNode0.last_packet_received 4).getD 0)
      (labelsFrom 4 recvMsgs) ∧
    (recvNodeF.last_packet_received 4).getD 0 =
      (labelsFrom 4 recvMsgs).getLastD ((recvNode0.last_packet_received 4).getD 0) :=
  (receive_packet_monotone recvNode0).2 recvMsgs recvNodeF 4 rfl

/-- The replay loop over labels [L, L + k) collects the payloads of the
buffer entries starting at position L - 1, in order. -/
theorem collectReplay_range (buf : List (Packet × List Nat)) :
    ∀ (k L : Nat), 1 ≤ L → L - 1 + k ≤ buf.length →
      collectReplay buf (List.range' L k) =
        some (((buf.drop (L - 1)).take k).map Prod.fst) := by
  intro k
  induction k with
  | zero =>
      intro L h1 h2
      simp [collectReplay]
  | succ k ih =>
      intro L h1 h2
      have hLlt : L - 1 < buf.length := by omega
      have hne : ¬ L = 0 := by omega
      have hdrop : buf.drop (L - 1) = buf.get ⟨L - 1, hLlt⟩ :: buf.drop L := by
        have := List.drop_eq_getElem_cons hLlt
        rw [this]
        have hL1 : L - 1 + 1 = L := by omega
        rw [hL1]
        rfl
      rw [List.range'_succ]
      simp only [collectReplay, if_neg hne, List.getElem?_eq_getElem hLlt,
        ih (L + 1) (by omega) (by omega), Option.map_some']
      rw [hdrop]
      simp [List.take_succ_cons]

/-- C4: resume_at on an egress with buffer length M and 1 ≤ L ≤ M invokes
the egress processor once per buffer entry L..=M in increasing label order,
each time with a clone of that entry's payload, the shard defaulting to 0
and the singleton destination set of the requesting node (the entry's
recorded set is ignored), which is M - L + 1 invocations, and sets
next_packet_to_send[node] to M + 1. -/
theorem resume_at_spec (n : Node) (node L : Nat) (on_shard : Option Nat)
    (hinner : n.inner = NodeType.Egress (some ()))
    (hL1 : 1 ≤ L) (hLM : L ≤ n.buffer.length) :
    resume_at n node L on_shard =
      some ({ n with
                next_packet_to_send :=
                  mupdate n.next_packet_to_send node (n.buffer.length + 1) },
            (n.buffer.drop (L - 1)).map fun e => (e.1, on_shard.getD 0, [node])) ∧
    ((n.buffer.drop (L - 1)).map fun e => (e.1, on_shard.getD 0, [node])).length
      = n.buffer.length - L + 1 := by
  constructor
  · simp only [resume_at, hinner]
    rw [collectReplay_range n.buffer (n.buffer.length + 1 - L) L hL1 (by omega)]
    have htake : (n.buffer.drop (L - 1)).take (n.buffer.length + 1 - L) =
        n.buffer.drop (L - 1) := by
      apply List.take_of_length_le
      rw [List.length_drop]
      omega
    rw [htake]
    simp only [List.map_map]
    rfl
  · rw [List.length_map, List.length_drop]
    omega

/-- Egress node with a two-entry buffer for the C4 and C10 witnesses. -/
def rnode0 : Node :=
  ⟨.Egress (some ()), some 10, fun _ => none, fun _ => none,
    [(.Message ⟨1, 10⟩ ⟨0, 0⟩ [] none, [3]), (.Message ⟨2, 10⟩ ⟨0, 0⟩ [] none, [4])]⟩

/-- Witness for C4's theorem: resuming node 3 at label 1 on the two-entry
egress buffer. -/
theorem resume_at_spec_witness :
    (resume_at rnode0 3 1 none =
      some ({ rnode0 with
                next_packet_to_send :=
                  mupdate rnode0.next_packet_to_send 3 (rnode0.buffer.length + 1) },
            (rnode0.buffer.drop (1 - 1)).map fun e =>
              (e.1, (none : Option Nat).getD 0, [3]))) ∧
    ((rnode0.buffer.drop (1 - 1)).map fun e =>
        (e.1, (none : Option Nat).getD 0, [3])).length = rnode0.buffer.length - 1 + 1 :=
  resume_at_spec rnode0 3 1 none rfl (by decide) (by decide)

/-- C10: resume_at on an egress with buffer length M and a label of at
least M + 1 performs zero invocations and still sets
next_packet_to_send[node] to M + 1, even below the requested label. -/
theorem resume_at_overshoot (n : Node) (node L : Nat) (on_shard : Option Nat)
    (hinner : n.inner = NodeType.Egress (some ()))
    (hL : n.buffer.length + 1 ≤ L) :
    resume_at n node L on_shard =
      some ({ n with
                next_packet_to_send :=
                  mupdate n.next_packet_to_send node (n.buffer.length + 1) }, []) ∧
    mupdate n.next_packet_to_send node (n.buffer.length + 1) node =
      some (n.buffer.length + 1) := by
  constructor
  · simp only [resume_at, hinner]
    have h0 : n.buffer.length + 1 - L = 0 := by omega
    rw [h0]
    simp [collectReplay, List.range']
  · simp [mupdate]

/-- Witness for C10's theorem: resuming node 3 at label 7 on the two-entry
egress buffer replays nothing and sets the next label to 3. -/
theorem resume_at_overshoot_witness :
    (resume_at rnode0 3 7 none =
      some ({ rnode0 with
                next_packet_to_send :=
                  mupdate rnode0.next_packet_to_send 3 (rnode0.buffer.length + 1) }, [])) ∧
    mupdate rnode0.next_packet_to_send 3 (rnode0.buffer.length + 1) 3 =
      some (rnode0.buffer.length + 1) :=
  resume_at_overshoot rnode0 3 7 none rfl (by decide)

/-- Inversion of a successful buffer write: a label beyond the buffer is
exactly one past its end and appends; a label inside the buffer (1-based)
adds the destination to that entry's set. -/
theorem bufferWrite_some (buf : List (Packet × List Nat)) (m : Packet)
    (label to_ : Nat) (buf1 : List (Packet × List Nat))
    (h : bufferWrite buf m label to_ = some buf1) :
    (buf.length < label → label = buf.length + 1 ∧ buf1 = buf ++ [(m, [to_])]) ∧
    (label ≤ buf.length → ∃ e, buf[label - 1]? = some e ∧
        buf1 = buf.set (label - 1) (e.1, insertSet e.2 to_)) := by
  by_cases hlt : buf.length < label
  · rw [bufferWrite, if_pos hlt] at h
    by_cases heq : label = buf.length + 1
    · rw [if_pos heq] at h
      refine ⟨fun _ => ⟨heq, (Option.some.inj h).symm⟩, fun hle => absurd hle (by omega)⟩
    · rw [if_neg heq] at h
      exact Option.noConfusion h
  · rw [bufferWrite, if_neg hlt] at h
    have hle : label ≤ buf.length := Nat.le_of_not_lt hlt
    by_cases h0 : label = 0
    · rw [if_pos h0] at h
      exact Option.noConfusion h
    · rw [if_neg h0] at h
      cases hg : buf[label - 1]? with
      | none =>
          simp only [hg] at h
          exact Option.noConfusion h
      | some e =>
          simp only [hg] at h
          exact ⟨fun hlt' => absurd hlt' hlt,
                 fun _ => ⟨e, rfl, (Option.some.inj h).symm⟩⟩

/-- Inversion of a successful send_external_packet call. -/
theorem send_inv (n : Node) (m : Packet) (to_ : Nat) (n' : Node) (b : Bool)
    (h : send_external_packet n m to_ = some (n', b)) :
    ∃ id me buf1, m.get_id = some id ∧ n.global_addr = some me ∧ id.from_ = me ∧
      bufferWrite n.buffer m id.label to_ = some buf1 ∧ n'.buffer = buf1 ∧
      ((b = true ∧ ∃ old, n.next_packet_to_send to_ = some old ∧
          checkSkipped buf1 to_ (List.range' old (id.label - old)) = some () ∧
          n'.next_packet_to_send = mupdate n.next_packet_to_send to_ (id.label + 1)) ∨
       (b = false ∧ n.next_packet_to_send to_ = none ∧
          n'.next_packet_to_send = n.next_packet_to_send)) := by
  cases hid : m.get_id with
  | none =>
      simp only [send_external_packet, hid] at h
      exact Option.noConfusion h
  | some id =>
  cases hme : n.global_addr with
  | none =>
      simp only [send_external_packet, hid, hme] at h
      exact Option.noConfusion h
  | some me =>
  simp only [send_external_packet, hid, hme] at h
  by_cases hfm : id.from_ = me
  · rw [if_pos hfm] at h
    cases hbw : bufferWrite n.buffer m id.label to_ with
    | none =>
        simp only [hbw] at h
        exact Option.noConfusion h
    | some buf1 =>
        simp only [hbw] at h
        cases hnx : n.next_packet_to_send to_ with
        | none =>
            simp only [hnx] at h
            obtain ⟨h1, h2⟩ := Prod.mk.injEq .. ▸ Option.some.inj h
            refine ⟨id, me, buf1, rfl, rfl, hfm, hbw, ?_, ?_⟩
            · rw [← h1]
            · exact Or.inr ⟨h2.symm, rfl, by rw [← h1]⟩
        | some old =>
            simp only [hnx] at h
            cases hchk : checkSkipped buf1 to_ (List.range' old (id.label - old)) with
            | none =>
                simp only [hchk] at h
                exact Option.noConfusion h
            | some u =>
                cases u
                simp only [hchk] at h
                obtain ⟨h1, h2⟩ := Prod.mk.injEq .. ▸ Option.some.inj h
                refine ⟨id, me, buf1, rfl, rfl, hfm, hbw, ?_, ?_⟩
                · rw [← h1]
                · exact Or.inl ⟨h2.symm, old, rfl, hchk, by rw [← h1]⟩
  · rw [if_neg hfm] at h
    exact Option.noConfusion h

/-- A successful skipped-labels check means no checked entry lists the
destination. -/
theorem checkSkipped_mem (buf : List (Packet × List Nat)) (to_ : Nat) :
    ∀ is_, checkSkipped buf to_ is_ = some () →
      ∀ i ∈ is_, ∀ f, buf[i - 1]? = some f → to_ ∉ f.2 := by
  intro is_
  induction is_ with
  | nil =>
      intro _ i hi
      simp at hi
  | cons j rest ih =>
      intro h i hi f hget
      by_cases hj : j = 0
      · simp only [checkSkipped, if_pos hj] at h
        exact Option.noConfusion h
      · simp only [checkSkipped, if_neg hj] at h
        cases hg : buf[j - 1]? with
        | none =>
            simp only [hg] at h
            exact Option.noConfusion h
        | some ej =>
            simp only [hg] at h
            by_cases hmem : to_ ∈ ej.2
            · rw [if_pos hmem] at h
              exact Option.noConfusion h
            · rw [if_neg hmem] at h
              rcases List.mem_cons.mp hi with rfl | hi'
              · rw [hget] at hg
                obtain rfl : f = ej := Option.some.inj hg
                exact hmem
              · exact ih h i hi' f hget

/-- A successful send preserves the 1, 2, 3, ... labelling of buffered
packets: a fresh label appends a packet carrying exactly the next label,
and an existing label only touches a destination set. -/
theorem labelSeq_send (n n' : Node) (m : Packet) (to_ : Nat) (b : Bool)
    (hseq : labelSeq n) (h : send_external_packet n m to_ = some (n', b)) :
    labelSeq n' := by
  obtain ⟨id, me, buf1, hid, hme, hfm, hbw, hbuf, _⟩ := send_inv n m to_ n' b h
  obtain ⟨hfresh, hset⟩ := bufferWrite_some n.buffer m id.label to_ buf1 hbw
  intro i f hget
  rw [hbuf] at hget
  by_cases hlt : n.buffer.length < id.label
  · obtain ⟨heq, rfl⟩ := hfresh hlt
    by_cases hi : i < n.buffer.length
    · rw [List.getElem?_append, if_pos hi] at hget
      exact hseq i f hget
    · have hie : i = n.buffer.length := by
        by_contra hcon
        have hlen : (n.buffer ++ [(m, [to_])]).length ≤ i := by
          simp only [List.length_append, List.length_cons, List.length_nil]
          omega
        rw [List.getElem?_eq_none hlen] at hget
        exact Option.noConfusion hget
      rw [hie, List.getElem?_append, if_neg (by omega)] at hget
      have hz : n.buffer.length - n.buffer.length = 0 := by omega
      rw [hz] at hget
      obtain rfl : (m, [to_]) = f := Option.some.inj (by simpa using hget)
      exact ⟨id, hid, by omega⟩
  · obtain ⟨e, hgete, rfl⟩ := hset (Nat.le_of_not_lt hlt)
    by_cases hij : i = id.label - 1
    · subst hij
      have hidx : id.label - 1 < n.buffer.length := by
        by_contra hcon
        rw [List.getElem?_eq_none (Nat.le_of_not_lt hcon)] at hgete
        exact Option.noConfusion hgete
      rw [List.getElem?_set, if_pos rfl, if_pos hidx] at hget
      obtain rfl : (e.1, insertSet e.2 to_) = f := Option.some.inj hget
      obtain ⟨id0, hid0, hlab0⟩ := hseq (id.label - 1) e hgete
      exact ⟨id0, hid0, hlab0⟩
    · rw [List.getElem?_set, if_neg (fun hh => hij hh.symm)] at hget
      exact hseq i f hget

/-- C3: on a successful send_external_packet call the packet must come from
this node; a label beyond the buffer must be exactly one past its end
(fatal otherwise, second conjunct) and appends (payload clone, singleton
destination set), while an existing label adds the destination to that
entry's set; the call returns true exactly when the destination is a key of
next_packet_to_send, in which case that entry becomes label + 1, and
returns false leaving the map untouched otherwise.  Consequently (third
conjunct) any successful sequence of sends preserves the gap-free 1, 2, 3,
... labelling of the buffer. -/
theorem send_external_packet_spec :
    (∀ (n : Node) (m : Packet) (to_ : Nat) (id : PacketId) (me : Nat) (n' : Node) (b : Bool),
      m.get_id = some id → n.global_addr = some me →
      send_external_packet n m to_ = some (n', b) →
      id.from_ = me ∧
      (n.buffer.length < id.label →
        id.label = n.buffer.length + 1 ∧ n'.buffer = n.buffer ++ [(m, [to_])]) ∧
      (id.label ≤ n.buffer.length → ∃ e, n.buffer[id.label - 1]? = some e ∧
        n'.buffer = n.buffer.set (id.label - 1) (e.1, insertSet e.2 to_)) ∧
      (b = true ↔ (n.next_packet_to_send to_).isSome = true) ∧
      (b = true →
        n'.next_packet_to_send = mupdate n.next_packet_to_send to_ (id.label + 1)) ∧
      (b = false → n'.next_packet_to_send = n.next_packet_to_send)) ∧
    (∀ (n : Node) (m : Packet) (to_ : Nat) (id : PacketId) (me : Nat),
      m.get_id = some id → n.global_addr = some me → id.from_ = me →
      n.buffer.length < id.label → id.label ≠ n.buffer.length + 1 →
      send_external_packet n m to_ = none) ∧
    (∀ (n : Node) (cmds : List (Packet × Nat)) (n' : Node),
      labelSeq n → runSends n cmds = some n' → labelSeq n') := by
  refine ⟨?_, ?_, ?_⟩
  · intro n m to_ id me n' b hid hme h
    obtain ⟨id', me', buf1, hid', hme', hfm, hbw, hbuf, hgate⟩ := send_inv n m to_ n' b h
    have hID : id = id' := Option.some.inj (hid.symm.trans hid')
    subst hID
    have hME : me = me' := Option.some.inj (hme.symm.trans hme')
    subst hME
    obtain ⟨hfresh, hset⟩ := bufferWrite_some n.buffer m id.label to_ buf1 hbw
    refine ⟨hfm, ?_, ?_, ?_, ?_, ?_⟩
    · intro hlt
      obtain ⟨heq, rfl⟩ := hfresh hlt
      exact ⟨heq, hbuf⟩
    · intro hle
      obtain ⟨e, hgete, rfl⟩ := hset hle
      exact ⟨e, hgete, hbuf⟩
    · rcases hgate with ⟨hb, old, hold, _, _⟩ | ⟨hb, hnone, _⟩
      · simp [hb, hold]
      · simp [hb, hnone]
    · intro hb
      rcases hgate with ⟨_, old, _, _, hnext⟩ | ⟨hb', _, _⟩
      · exact hnext
      · rw [hb] at hb'
        exact Bool.noConfusion hb'
    · intro hb
      rcases hgate with ⟨hb', _, _, _⟩ | ⟨_, _, hnext⟩
      · rw [hb] at hb'
        exact Bool.noConfusion hb'
      · exact hnext
  · intro n m to_ id me hid hme hfm hlt hneq
    have hbwn : bufferWrite n.buffer m id.label to_ = none := by
      rw [bufferWrite, if_pos hlt, if_neg hneq]
    simp only [send_external_packet, hid, hme, if_pos hfm, hbwn]
  · intro n cmds
    induction cmds generalizing n with
    | nil =>
        intro n' hseq hrun
        obtain rfl : n = n' := Option.some.inj (by simpa [runSends] using hrun)
        exact hseq
    | cons c rest ih =>
        obtain ⟨m, to_⟩ := c
        intro n' hseq hrun
        simp only [runSends] at hrun
        cases hstep : send_external_packet n m to_ with
        | none => rw [hstep] at hrun; exact Option.noConfusion hrun
        | some r =>
            obtain ⟨n1, b⟩ := r
            rw [hstep] at hrun
            exact ih n1 n' (labelSeq_send n n1 m to_ b hseq hstep) hrun

/-- Egress node with child 1 active at label 1 and every other child
paused, used by the C3 witness and the C6 counterexample. -/
def cnode0 : Node :=
  ⟨.Egress (some ()), some 10, fun _ => none,
    fun q => if q = 1 then some 1 else none, []⟩

/-- A Message from node 10 with the given label. -/
def msgL (l : Nat) : Packet := .Message ⟨l, 10⟩ ⟨0, 0⟩ [] none

/-- The node after sending label 1 to child 1 from cnode0. -/
def wSendFinal : Node :=
  { cnode0 with
      buffer := [(msgL 1, [1])],
      next_packet_to_send := mupdate cnode0.next_packet_to_send 1 2 }

/-- Witness for C3's theorem: one fresh send from an empty buffer leaves
the buffer labelled 1, 2, 3, .... -/
theorem send_external_packet_spec_witness : labelSeq wSendFinal :=
  send_external_packet_spec.2.2 cnode0 [(msgL 1, 1)] wSendFinal
    (fun i f hget => by simp [cnode0] at hget) rfl

/-- C6 counterexample: after sending labels 1..3 to the active child 1 and
then broadcasting label 4 to the paused child 2 (the send returns false) and to child
1, child 2 is still paused (no next_packet_to_send key) yet buffer entry 4
— recorded while 2 was paused — lists 2 in its destination set, refuting
the claim that entries recorded while a destination is paused never list
it. -/
theorem skip_consistency_cex :
    ((runSends cnode0
        [(msgL 1, 1), (msgL 2, 1), (msgL 3, 1), (msgL 4, 2), (msgL 4, 1)]).map fun n =>
          ((n.next_packet_to_send 2).isNone, n.buffer[3]?.map fun f => f.2.contains 2)) =
      some (true, some true) := by
  rfl

/-- C6 amended: the guarantee the code actually enforces is the pre-send
assertion: whenever a send to an active destination succeeds and returns
true, no buffered entry with a label in [next_packet_to_send[to], label)
lists that destination in its set. -/
theorem skip_consistency_amended (n n' : Node) (m : Packet) (to_ : Nat)
    (id : PacketId) (old : Nat)
    (hid : m.get_id = some id)
    (hold : n.next_packet_to_send to_ = some old)
    (h : send_external_packet n m to_ = some (n', true)) :
    ∀ i, old ≤ i → i < id.label → ∀ f, n'.buffer[i - 1]? = some f → to_ ∉ f.2 := by
  obtain ⟨id', me, buf1, hid', hme, hfm, hbw, hbuf, hgate⟩ := send_inv n m to_ n' true h
  have hID : id = id' := Option.some.inj (hid.symm.trans hid')
  subst hID
  rcases hgate with ⟨_, old', hold', hchk, _⟩ | ⟨hb, _, _⟩
  · have hOLD : old = old' := Option.some.inj (hold.symm.trans hold')
    subst hOLD
    intro i h1 h2 f hget
    rw [hbuf] at hget
    refine checkSkipped_mem buf1 to_ _ hchk i ?_ f hget
    exact List.mem_range'_1.mpr ⟨h1, by omega⟩
  · exact Bool.noConfusion hb

/-- Node with one buffered entry destined only to child 2 and child 1
active at label 1, for the C6 amended witness. -/
def nskip : Node :=
  ⟨.Egress (some ()), some 10, fun _ => none,
    fun q => if q = 1 then some 1 else none, [(msgL 1, [2])]⟩

/-- The node after sending label 2 to child 1 from nskip. -/
def nskipF : Node :=
  { nskip with
      buffer := nskip.buffer ++ [(msgL 2, [1])],
      next_packet_to_send := mupdate nskip.next_packet_to_send 1 3 }

/-- Witness for C6's amended theorem: sending label 2 to child 1 skips
label 1, whose buffered entry (msgL 1, [2]) indeed does not list child 1. -/
theorem skip_consistency_amended_witness :
    (1 : Nat) ∉ ((msgL 1, ([2] : List Nat)) : Packet × List Nat).2 :=
  skip_consistency_amended nskip nskipF (msgL 2) 1 ⟨2, 10⟩ 1 rfl rfl rfl
    1 (by decide) (by decide) (msgL 1, [2]) rfl

end Noria
